import Mathlib

/-!
Verification of the matching/filtering engine of `Lib/rlcompleter.py`
(`Filter`/`Filterer`/`Completer`), shallowly embedded in Lean.

Python strings are modelled as `List Char`; Python exceptions are modelled
with `Except PyErr`; the two user-extensible filter chains are modelled as
lists of (possibly raising) predicate functions.  `warnings.catch_warnings`
has no observable effect in this model (it suppresses warnings, which are
not exceptions), so it is not modelled.
-/

set_option maxRecDepth 10000

deriving instance DecidableEq for Except

/-- Python strings are sequences of characters. -/
abbrev Str := List Char

/-- Conversion helper from Lean string literals to the `Str` model. -/
def str (s : String) : Str := s.toList

/-- A model of the Python exceptions that the completer code can meet:
`ValueError` (the only one `_callable_postfix` catches), `TypeError`
(raised by `Completer.__init__`), and arbitrary user-raised exceptions
coming out of filter predicates, attribute access or `eval`. -/
inductive PyErr where
  | valueError
  | typeError
  | userError (n : Nat)
deriving DecidableEq, Repr

/-- Outcome of `inspect.signature(val)` on a value: either a parameter
count or a raised exception. -/
inductive SigInfo where
  | params (n : Nat)
  | fails (e : PyErr)
deriving DecidableEq, Repr

/-- A Python value as far as the completer inspects it: `None`, or an
object with a callability flag, a signature-introspection outcome and an
identity tag. -/
inductive PyValue where
  | none
  | obj (callable : Bool) (sig : SigInfo) (tag : Nat)
deriving DecidableEq, Repr

/-- `callable(val)` -/
def PyValue.isCallable : PyValue → Bool
  | .none => false
  | .obj c _ _ => c

/-- `inspect.signature(val)` (never consulted on non-callables by the code;
`None` is given an arbitrary failing signature). -/
def PyValue.sigInfo : PyValue → SigInfo
  | .none => .fails .typeError
  | .obj _ s _ => s

/-- Embedding of `Completer._callable_postfix`: append `"("` to a callable,
additionally `")"` when `inspect.signature(val).parameters` is empty; only
a `ValueError` from the introspection is caught (`except ValueError: pass`),
any other exception propagates. -/
def callablePostfix (val : PyValue) (word : Str) : Except PyErr Str :=
  if val.isCallable then
    let word := word ++ str "("
    match val.sigInfo with
    | .params 0 => .ok (word ++ str ")")
    | .params (_ + 1) => .ok word
    | .fails e => if e = .valueError then .ok word else .error e
  else
    .ok word

/-- `word[:n] == text` with `n = len(text)`, the prefix test used by both
matchers. -/
def pyPrefix (word text : Str) : Bool := word.take text.length == text

/-- `keyword.kwlist` of CPython. -/
def kwlist : List Str :=
  [str "False", str "None", str "True", str "and", str "as", str "assert",
   str "async", str "await", str "break", str "class", str "continue",
   str "def", str "del", str "elif", str "else", str "except", str "finally",
   str "for", str "from", str "global", str "if", str "import", str "in",
   str "is", str "lambda", str "nonlocal", str "not", str "or", str "pass",
   str "raise", str "return", str "try", str "while", str "with", str "yield"]

/-- `keyword.softkwlist` of CPython. -/
def softkwlist : List Str := [str "_", str "case", str "match", str "type"]

/-- The keyword decoration step of `Completer.global_matches`:
`finally`/`try` get a colon, the literals/jump statements/`else`/`_` stay
bare, every other keyword gets a trailing space. -/
def decorateKeyword (word : Str) : Str :=
  if word == str "finally" || word == str "try" then
    word ++ str ":"
  else if word == str "False" || word == str "None" || word == str "True" ||
      word == str "break" || word == str "continue" || word == str "pass" ||
      word == str "else" || word == str "_" then
    word
  else
    word ++ str " "

/-- The keyword loop of `Completer.global_matches`: for each keyword whose
prefix equals `text`, mark it seen and append its decorated form.  Returns
(appended matches, seen keywords). -/
def kwScan (text : Str) : List Str → List Str × List Str
  | [] => ([], [])
  | w :: ws =>
    let (ms, sn) := kwScan text ws
    if pyPrefix w text then (decorateKeyword w :: ms, w :: sn) else (ms, sn)

/-- The keyword phase of `Completer.global_matches` together with the
initial `seen = set with "__builtins__"`. -/
def kwPhase (text : Str) : List Str × List Str :=
  let (ms, sn) := kwScan text (kwlist ++ softkwlist)
  (ms, str "__builtins__" :: sn)

/-- A dictionary (`namespace` / `builtins.__dict__`) as iterated by the
completer: an ordered association list. -/
abbrev Dict := List (Str × PyValue)

/-- A registered namespace-filter predicate
(`NamespaceFilter.filter(namespace, key, value, text)`), which may raise. -/
abbrev NsPred := Dict → Str → PyValue → Str → Except PyErr Bool

/-- Embedding of `Filterer._filter` for the namespace chain: short-circuit
conjunction over the chain, exceptions propagate. -/
def runNsFilters : List NsPred → Dict → Str → PyValue → Str → Except PyErr Bool
  | [], _, _, _, _ => .ok true
  | f :: fs, tgt, w, v, t =>
    match f tgt w v t with
    | .error e => .error e
    | .ok false => .ok false
    | .ok true => runNsFilters fs tgt w v t

/-- The per-dictionary loop of `Completer.global_matches`: for each entry
whose key has `text` as prefix and is unseen, mark it seen, consult the
namespace filter chain, and on acceptance append the postfixed word. -/
def nsScan (fs : List NsPred) (tgt : Dict) (text : Str) :
    List (Str × PyValue) → List Str → List Str → Except PyErr (List Str × List Str)
  | [], ms, sn => .ok (ms, sn)
  | (w, v) :: rest, ms, sn =>
    if pyPrefix w text && !(sn.contains w) then
      match runNsFilters fs tgt w v text with
      | .error e => .error e
      | .ok true =>
        match callablePostfix v w with
        | .error e => .error e
        | .ok m => nsScan fs tgt text rest (ms ++ [m]) (w :: sn)
      | .ok false => nsScan fs tgt text rest ms (w :: sn)
    else nsScan fs tgt text rest ms sn

/-- Attribute-filter options: `Completer.attr_matches` passes
`owner=thistype, property=True` for property candidates and no options
otherwise.  The owning type is identified by its tag. -/
structure FilterOptions where
  owner : Option Nat
  isProperty : Bool
deriving DecidableEq, Repr

/-- The empty `**options`. -/
def noOptions : FilterOptions := ⟨none, false⟩

/-- The object resolved from the dotted expression, as far as
`Completer.attr_matches` introspects it: `dir(thisobject)`, presence of
`__class__`, the flattened `_iter_class_members(thisobject.__class__)`,
the structural property test `isinstance(getattr(thistype, w, None),
property)`, and instance attribute access `getattr(thisobject, w, None)`. -/
structure PyObject where
  typeTag : Nat
  dirNames : List Str
  hasClass : Bool
  classMembers : List Str
  isProp : Str → Bool
  instVal : Str → PyValue

/-- A registered attribute-filter predicate
(`AttributeFilter.filter(instance, name, value, text, **options)`). -/
abbrev AttrPred := PyObject → Str → PyValue → Str → FilterOptions → Except PyErr Bool

/-- Embedding of `Filterer._filter` for the attribute chain. -/
def runAttrFilters : List AttrPred → PyObject → Str → PyValue → Str → FilterOptions →
    Except PyErr Bool
  | [], _, _, _, _, _ => .ok true
  | f :: fs, o, w, v, t, opts =>
    match f o w v t opts with
    | .error e => .error e
    | .ok false => .ok false
    | .ok true => runAttrFilters fs o w v t opts

/-- Observable events of one `attr_matches` run: a property getter firing
during instance attribute access, a plain instance attribute access, and a
consultation of the attribute filter chain with the given arguments. -/
inductive AttrEvent where
  | getterCall (name : Str)
  | valueAccess (name : Str)
  | filterQuery (name : Str) (value : PyValue) (opts : FilterOptions)
deriving DecidableEq, Repr

/-- The name an event concerns. -/
def AttrEvent.name : AttrEvent → Str
  | .getterCall n => n
  | .valueAccess n => n
  | .filterQuery n _ _ => n

/-- `getattr(thisobject, w, None)`: returns the instance value and records
whether the access fired a property getter (it does exactly when the
owning type's attribute `w` is a property). -/
def instanceGetattr (o : PyObject) (w : Str) : PyValue × AttrEvent :=
  if o.isProp w then (o.instVal w, .getterCall w) else (o.instVal w, .valueAccess w)

/-- Set-dedup keeping first occurrences. -/
def dedupAux (seen : List Str) : List Str → List Str
  | [] => []
  | w :: ws => if seen.contains w then dedupAux seen ws else w :: dedupAux (w :: seen) ws

/-- The member-name set gathered by `attr_matches`:
`words = set(dir(thisobject)); words.discard("__builtins__")`, then, when
the object has a `__class__`, `words.add('__class__')` and
`words.update(_iter_class_members(thisobject.__class__))`. -/
def objectWords (o : PyObject) : List Str :=
  let base := o.dirNames.filter (fun w => w ≠ str "__builtins__")
  let ext := if o.hasClass then str "__class__" :: o.classMembers else []
  dedupAux [] (base ++ ext)

/-- The suppression test of `attr_matches`:
`noPrefix and word[:n+1] == noPrefix` with `n = len(attr)`. -/
def suppressed (noPrefix : Option Str) (n : Nat) (w : Str) : Bool :=
  match noPrefix with
  | none => false
  | some np => w.take (n + 1) == np

/-- The initial `noPrefix` of `attr_matches`: `'_'` for an empty suffix,
`'__'` for a single-underscore suffix, else `None`. -/
def initNoPrefix (attr : Str) : Option Str :=
  if attr == [] then some (str "_")
  else if attr == str "_" then some (str "__")
  else none

/-- Loop body of `attr_matches` for a single member name `w`: prefix and
suppression tests, the property branch (filter with value `None` and
`owner`/`property` options, never decorated, no instance access), and the
value branch (one instance access, filter, `_callable_postfix` when the
value is not `None`).  Returns the appended candidates and the event
trace. -/
def attrWord (fs : List AttrPred) (o : PyObject) (expr attr text : Str)
    (noPrefix : Option Str) (w : Str) : Except PyErr (List Str × List AttrEvent) :=
  let n := attr.length
  if pyPrefix w attr && !(suppressed noPrefix n w) then
    let mtch := expr ++ str "." ++ w
    if o.isProp w then
      let opts : FilterOptions := ⟨some o.typeTag, true⟩
      match runAttrFilters fs o w .none text opts with
      | .error e => .error e
      | .ok true => .ok ([mtch], [.filterQuery w .none opts])
      | .ok false => .ok ([], [.filterQuery w .none opts])
    else
      let (value, ev) := instanceGetattr o w
      match runAttrFilters fs o w value text noOptions with
      | .error e => .error e
      | .ok false => .ok ([], [ev, .filterQuery w value noOptions])
      | .ok true =>
        if value ≠ .none then
          match callablePostfix value mtch with
          | .error e => .error e
          | .ok m => .ok ([m], [ev, .filterQuery w value noOptions])
        else
          .ok ([mtch], [ev, .filterQuery w value noOptions])
  else
    .ok ([], [])

/-- One pass of the `for word in words` loop of `attr_matches` under a
fixed `noPrefix`. -/
def attrRound (fs : List AttrPred) (o : PyObject) (expr attr text : Str)
    (noPrefix : Option Str) : List Str → Except PyErr (List Str × List AttrEvent)
  | [] => .ok ([], [])
  | w :: ws =>
    match attrWord fs o expr attr text noPrefix w with
    | .error e => .error e
    | .ok (ms, tr) =>
      match attrRound fs o expr attr text noPrefix ws with
      | .error e => .error e
      | .ok (ms', tr') => .ok (ms ++ ms', tr ++ tr')

/-- Termination measure for the relaxation loop: `noPrefix` steps
`'_' -> '__' -> None`. -/
def npRank : Option Str → Nat
  | none => 0
  | some np => if np == str "_" then 2 else 1

/-- The `while True` relaxation loop of `attr_matches`, with an explicit
step bound: recompute the candidate pass; stop when it is non-empty or
`noPrefix` is `None`, otherwise relax `noPrefix` one step
(`'_' -> '__'`, anything else -> `None`) and retry.  Event traces of all
passes accumulate.  The loop is entered at `fuel = npRank noPrefix`, and
each relaxation lowers `npRank` by at least one, so `fuel = 0` is only
reached with `noPrefix = None`, where the loop always breaks after its
pass — exactly what the fuel-exhausted branch does. -/
def attrWhileGo (fs : List AttrPred) (o : PyObject) (expr attr text : Str) :
    Nat → Option Str → Except PyErr (List Str × List AttrEvent)
  | 0, noPrefix => attrRound fs o expr attr text noPrefix (objectWords o)
  | fuel + 1, noPrefix =>
    match attrRound fs o expr attr text noPrefix (objectWords o) with
    | .error e => .error e
    | .ok (ms, tr) =>
      match noPrefix with
      | none => .ok (ms, tr)
      | some np =>
        if ms.isEmpty then
          match attrWhileGo fs o expr attr text fuel
              (if np == str "_" then some (str "__") else none) with
          | .error e => .error e
          | .ok (ms', tr') => .ok (ms', tr ++ tr')
        else
          .ok (ms, tr)

/-- The relaxation loop of `attr_matches` started on `noPrefix`. -/
def attrWhile (fs : List AttrPred) (o : PyObject) (expr attr text : Str)
    (noPrefix : Option Str) : Except PyErr (List Str × List AttrEvent) :=
  attrWhileGo fs o expr attr text (npRank noPrefix) noPrefix

/-- `\w` of the `re` module (restricted to the characters the model uses). -/
def wordChar (c : Char) : Bool := c.isAlphanum || c == '_'

/-- Maximal leading run of word characters, with the remainder. -/
def takeWord : Str → Str × Str
  | [] => ([], [])
  | c :: cs =>
    if wordChar c then
      let (w, r) := takeWord cs
      (c :: w, r)
    else
      ([], c :: cs)

/-- Join name segments with dots (the text matched by group 1). -/
def joinDots : List Str → Str
  | [] => []
  | [s] => s
  | s :: ss => s ++ str "." ++ joinDots ss

/-- Greedy continuation of `(\w+(\.\w+)*)\.(\w*)` after one or more
segments have been read (held in `acc`, reversed).  A dot followed by a
word run extends the chain; a dot followed by a non-word character ends
group 1 there with an empty group 3; anything else forces the backtrack
that turns the last segment into group 3 (or fails when only one segment
was read).  `fuel` starts at the length of `r` and each recursive step
consumes at least two characters of `r` and one of `fuel`, so `fuel = 0`
is only reached with `r` empty and the catch-all branch applies there
exactly as for any other non-dot remainder. -/
def rlChain (fuel : Nat) (acc : List Str) (r : Str) : Option (Str × Str) :=
  match fuel, r with
  | fuel + 1, '.' :: rest =>
    match takeWord rest with
    | ([], _) => some (joinDots acc.reverse, [])
    | (c :: w, r') => rlChain fuel ((c :: w) :: acc) r'
  | _, _ =>
    match acc with
    | last :: prev :: restAcc => some (joinDots (prev :: restAcc).reverse, last)
    | _ => none

/-- `re.compile(r"(\w+(\.\w+)*)\.(\w*)").match(text)`, returning
`(group 1, group 3)`: an anchored (not full) match with Python's
greedy/backtracking semantics. -/
def rlMatch (text : Str) : Option (Str × Str) :=
  match takeWord text with
  | ([], _) => none
  | (c :: w, r) => rlChain r.length [c :: w] r

/-- Lexicographic-by-code-point comparison, Python string `<=`. -/
def strLe : Str → Str → Bool
  | [], _ => true
  | _ :: _, [] => false
  | a :: as, b :: bs => if a < b then true else if b < a then false else strLe as bs

/-- Insertion step of `matches.sort()`. -/
def insertStr (x : Str) : List Str → List Str
  | [] => [x]
  | y :: ys => if strLe x y then x :: y :: ys else y :: insertStr x ys

/-- `matches.sort()` (ascending lexicographic). -/
def sortStrs (l : List Str) : List Str := l.foldr insertStr []

/-- The completion engine's state that the claims need: the active
namespace, the builtins dictionary, the two filter chains, and the
behaviour of `eval(expr, self.namespace)` on dotted-chain expressions
(an oracle, since `eval` may run arbitrary code). -/
structure Completer where
  ns : Dict
  builtins : Dict
  nsFilters : List NsPred
  attrFilters : List AttrPred
  evalFn : Str → Except PyErr PyObject

/-- Embedding of `Completer.global_matches`: keyword phase, then the
active namespace, then builtins, sharing the `seen` set. -/
def globalMatches (c : Completer) (text : Str) : Except PyErr (List Str) :=
  let (ms, sn) := kwPhase text
  match nsScan c.nsFilters c.ns text c.ns ms sn with
  | .error e => .error e
  | .ok (ms, sn) =>
    match nsScan c.nsFilters c.builtins text c.builtins ms sn with
    | .error e => .error e
    | .ok (ms, _) => .ok ms

/-- Embedding of `Completer.attr_matches`: anchored regex match (empty
result when it fails), `eval` of group 1 with every exception swallowed
(`except Exception: return []`), the relaxation loop, and the final
`matches.sort()`.  The event trace of the run is returned alongside. -/
def attrMatches (c : Completer) (text : Str) : Except PyErr (List Str × List AttrEvent) :=
  match rlMatch text with
  | none => .ok ([], [])
  | some (expr, attr) =>
    match c.evalFn expr with
    | .error _ => .ok ([], [])
    | .ok o =>
      match attrWhile c.attrFilters o expr attr text (initNoPrefix attr) with
      | .error e => .error e
      | .ok (ms, tr) => .ok (sortStrs ms, tr)

/-- Embedding of `Completer.get_matches`: dispatch on a dot in `text`. -/
def getMatches (c : Completer) (text : Str) : Except PyErr (List Str) :=
  if text.contains '.' then
    match attrMatches c text with
    | .error e => .error e
    | .ok (ms, _) => .ok ms
  else
    globalMatches c text

/-- `str.strip()` emptiness: `not text.strip()` holds exactly when every
character is whitespace. -/
def blankText (text : Str) : Bool := text.all Char.isWhitespace

/-- What one `complete(text, state)` call hands back to readline: a string
or `None` ("no more matches"). -/
inductive CompleteOut where
  | text (s : Str)
  | noMore
deriving DecidableEq, Repr

/-- Embedding of `Completer.complete`.  `cached` is `self.matches` from the
previous call, `readlineAvail` is `_readline_available`; the result pairs
the returned value with the new `self.matches`.  On `state == 0` with
non-blank text the match computation runs inside
`warnings.catch_warnings(action="ignore")`, which suppresses warnings
only — exceptions pass through; the final `self.matches[state]` is guarded
by `except IndexError`. -/
def complete (c : Completer) (readlineAvail : Bool) (cached : List Str)
    (text : Str) (state : Nat) : Except PyErr (CompleteOut × List Str) :=
  if blankText text then
    if state = 0 then
      if readlineAvail then .ok (.text [], cached) else .ok (.text ['\t'], cached)
    else
      .ok (.noMore, cached)
  else
    match (if state = 0 then getMatches c text else .ok cached) with
    | .error e => .error e
    | .ok ms =>
      match ms.get? state with
      | some m => .ok (.text m, ms)
      | none => .ok (.noMore, ms)

/-- The `namespace` argument of `Completer.__init__`: `None`, a dictionary,
or a non-dictionary value with its truthiness. -/
inductive PyArg where
  | noneArg
  | dictArg (d : Dict)
  | otherArg (truthy : Bool)
deriving DecidableEq, Repr

/-- Python truthiness of the constructor argument (a dictionary is falsy
exactly when empty). -/
def pyTruthy : PyArg → Bool
  | .noneArg => false
  | .dictArg d => !d.isEmpty
  | .otherArg t => t

/-- `isinstance(namespace, dict)` -/
def pyIsDict : PyArg → Bool
  | .dictArg _ => true
  | _ => false

/-- The observable outcome of `Completer.__init__`: the `use_main_ns` flag
and the stored namespace argument (absent when deferring to `__main__`). -/
structure InitResult where
  useMainNs : Bool
  stored : Option PyArg
deriving DecidableEq, Repr

/-- Embedding of `Completer.__init__`:
`if namespace and not isinstance(namespace, dict): raise TypeError(...)`,
then defer to `__main__` on `None`, else store the argument. -/
def completerInit (ns : PyArg) : Except PyErr InitResult :=
  if pyTruthy ns && !(pyIsDict ns) then
    .error .typeError
  else
    match ns with
    | .noneArg => .ok ⟨true, none⟩
    | arg => .ok ⟨false, some arg⟩

/-- A filter as the registry sees it: Python's default equality is object
identity, so two filters are equal exactly when they are the same object;
the `id` field stands for that identity and `priority` is the filter's
priority attribute. -/
structure RFilter where
  id : Nat
  priority : Int
deriving DecidableEq, Repr

/-- Embedding of `Filterer._add_filter`: scan left to right; an equal
filter aborts with `False`; the first strictly larger priority marks the
insertion point (keeping insertion order within equal priorities);
otherwise append at the end. -/
def addFilter : List RFilter → RFilter → Bool × List RFilter
  | [], f => (true, [f])
  | g :: rest, f =>
    if g = f then
      (false, g :: rest)
    else if f.priority < g.priority then
      (true, f :: g :: rest)
    else
      match addFilter rest f with
      | (b, rest') => (b, g :: rest')

/-- A chain built by a sequence of `add` operations starting empty. -/
def buildChain (l : List RFilter) : List RFilter :=
  l.foldl (fun c f => (addFilter c f).2) []

/-- The chain invariant: non-decreasing priorities. -/
def ChainSorted (c : List RFilter) : Prop :=
  List.Pairwise (fun a b => a.priority ≤ b.priority) c

/-- Strings consisting of word characters only (ordinary identifiers). -/
def wordOnly (w : Str) : Bool := w.all wordChar

/-- The trailing decorations the completer can attach to a base name:
nothing, a call-open marker, an immediately-closed call, a colon, or a
space. -/
def decoSet : List Str := [[], str "(", str "()", str ":", str " "]

/-- The undecorated form of a candidate in the sense of the specification:
the candidate with a trailing `"()"`, `"("`, `":"` or `" "` decoration
removed. -/
def stripDecoration (s : Str) : Str :=
  if (str "()").isSuffixOf s then s.dropLast.dropLast
  else if (str "(").isSuffixOf s then s.dropLast
  else if (str ":").isSuffixOf s then s.dropLast
  else if (str " ").isSuffixOf s then s.dropLast
  else s

/-- The candidate list of an `attr_matches` outcome, when no exception
escaped. -/
def matchesOf (r : Except PyErr (List Str × List AttrEvent)) : Option (List Str) :=
  match r with
  | .ok (ms, _) => some ms
  | .error _ => none

/-- Modelled from the spec: the progressive-relaxation suppression rules of
section 4.3 as the claim states them — an underscore-prefix threshold that
suppresses any member name *starting with* the threshold string, relaxed
one full step at a time (empty suffix: one-underscore threshold, then
two-underscore threshold, then none; single-underscore suffix:
two-underscore threshold, then none). -/
def specThresholds (attr : Str) : List (Str → Bool)  :=
  if attr == [] then
    [fun w => (str "_").isPrefixOf w, fun w => (str "__").isPrefixOf w, fun _ => false]
  else if attr == str "_" then
    [fun w => (str "__").isPrefixOf w, fun _ => false]
  else
    [fun _ => false]

/-- First non-empty candidate pass (stop relaxing once something
survives). -/
def firstNonempty : List (List Str) → List Str
  | [] => []
  | l :: ls => if l.isEmpty then firstNonempty ls else l

/-- Modelled from the spec: the candidate names `attr_matches` should
produce according to the claim's relaxation rule, for a plain object with
no filters and no interesting values: member names prefixed by `attr`,
suppressed by the active threshold, relaxing until non-empty, each
prefixed with `expr.` and sorted. -/
def specRelaxMatches (names : List Str) (expr attr : Str) : List Str :=
  let passes := (specThresholds attr).map
    (fun sup => names.filter (fun w => pyPrefix w attr && !(sup w)))
  sortStrs ((firstNonempty passes).map (fun w => expr ++ str "." ++ w))

/-- A non-callable value. -/
def plainValue : PyValue := .obj false (.params 1) 0

/-- A namespace filter that raises on every consultation. -/
def raisingNsFilter : NsPred := fun _ _ _ _ => .error (.userError 1)

/-- A namespace filter that rejects every suggestion. -/
def rejectAllNsFilter : NsPred := fun _ _ _ _ => .ok false

/-- Counterexample fixture for the completion-call error claim: one
matching namespace entry guarded by a raising filter. -/
def cexC1 : Completer :=
  ⟨[(str "spam", plainValue)], [], [raisingNsFilter], [], fun _ => .error .typeError⟩

/-- Counterexample fixture for the anchored-match claim: `foo` resolves to
an object with a single member `barx`. -/
def cexC2Obj : PyObject :=
  ⟨0, [str "barx"], false, [], fun _ => false, fun _ => PyValue.none⟩

/-- Completer whose namespace evaluates `foo` to `cexC2Obj`. -/
def cexC2 : Completer :=
  ⟨[], [], [], [], fun e => if e == str "foo" then .ok cexC2Obj else .error .typeError⟩

/-- Counterexample fixture for the relaxation claim: an object whose only
members are `_a` and `__b`, so every member is hidden by the initial
empty-suffix rule. -/
def cexC3Obj : PyObject :=
  ⟨0, [str "_a", str "__b"], false, [], fun _ => false, fun _ => PyValue.none⟩

/-- Completer whose namespace evaluates `a` to `cexC3Obj`. -/
def cexC3 : Completer :=
  ⟨[], [], [], [], fun e => if e == str "a" then .ok cexC3Obj else .error .typeError⟩

/-- Counterexample fixture for the bare-name dedup claim: a namespace with
the adversarial keys `x` and `x(`, whose candidates collide after
undecoration. -/
def cexC8 : Completer :=
  ⟨[(str "x", plainValue), (str "x(", plainValue)], [], [], [],
   fun _ => .error .typeError⟩

/-- Witness fixture for the bare-name matching statements: a namespace
with the single ordinary key `w`. -/
def witC8 : Completer :=
  ⟨[(str "w", plainValue)], [], [], [], fun _ => .error .typeError⟩

/-- Witness fixture for the seen-before-filter statement: the key `w` in
both the active namespace and builtins, with a reject-all filter. -/
def witC9 : Completer :=
  ⟨[(str "w", plainValue)], [(str "w", plainValue)], [rejectAllNsFilter], [],
   fun _ => .error .typeError⟩

/-- Witness fixture for the property-protection statement: an object with
a property member `bar` and a plain member `baz`. -/
def witC6Obj : PyObject :=
  ⟨7, [str "bar", str "baz"], false, [], fun u => u == str "bar",
   fun _ => plainValue⟩

/-- An attribute filter that rejects the candidate `bar`. -/
def rejectBarAttrFilter : AttrPred := fun _ u _ _ _ => .ok (u != str "bar")

/-- Completer whose namespace evaluates `f` to `witC6Obj`, with the
`bar`-rejecting attribute filter registered. -/
def witC6 : Completer :=
  ⟨[], [], [], [rejectBarAttrFilter],
   fun e => if e == str "f" then .ok witC6Obj else .error .typeError⟩

/-- Witness fixture for the amended relaxation statement: an object whose
only member is `_a`. -/
def witC3Obj : PyObject :=
  ⟨0, [str "_a"], false, [], fun _ => false, fun _ => PyValue.none⟩

/-! ## Theorems -/

theorem pyPrefix_iff (word text : Str) : pyPrefix word text = true ↔ text <+: word := by
  unfold pyPrefix
  rw [beq_iff_eq]
  constructor
  · intro h
    refine ⟨word.drop text.length, ?_⟩
    nth_rewrite 1 [← h]
    exact List.take_append_drop _ _
  · intro h
    obtain ⟨t, ht⟩ := h
    subst ht
    simp

/-! ### C4 — construction-time namespace check -/

/-- C4, counterexample: a falsy non-mapping constructor argument (such as
an empty list) does *not* fail with a `TypeError`; the `namespace and not
isinstance(namespace, dict)` guard skips falsy values, and the argument is
silently stored. -/
theorem completerInit_falsy_non_dict_accepted :
    completerInit (PyArg.otherArg false) = .ok ⟨false, some (PyArg.otherArg false)⟩ ∧
    completerInit (PyArg.otherArg false) ≠ .error .typeError := by
  constructor
  · rfl
  · intro h
    rw [show completerInit (PyArg.otherArg false)
          = .ok ⟨false, some (PyArg.otherArg false)⟩ from rfl] at h
    exact Except.noConfusion h

/-- C4, amended: only a *truthy* non-mapping constructor argument fails
synchronously with a `TypeError`; a falsy non-mapping argument is accepted
and stored, `None` defers to the process-wide namespace, and a dictionary
(truthy or falsy) is accepted and stored. -/
theorem completerInit_spec :
    (∀ d : Dict, completerInit (PyArg.dictArg d) = .ok ⟨false, some (PyArg.dictArg d)⟩) ∧
    completerInit PyArg.noneArg = .ok ⟨true, none⟩ ∧
    completerInit (PyArg.otherArg true) = .error .typeError ∧
    completerInit (PyArg.otherArg false) = .ok ⟨false, some (PyArg.otherArg false)⟩ := by
  refine ⟨fun d => ?_, rfl, rfl, rfl⟩
  unfold completerInit
  simp [pyTruthy, pyIsDict]

/-! ### C5 — callable postfix and signature introspection -/

/-- C5, counterexample: when signature introspection raises an exception
other than `ValueError` on a callable, `_callable_postfix` does *not* fall
back to the opening marker — the exception propagates. -/
theorem callablePostfix_non_valueError_propagates :
    callablePostfix (.obj true (.fails (.userError 7)) 0) (str "f") = .error (.userError 7) ∧
    callablePostfix (.obj true (.fails (.userError 7)) 0) (str "f") ≠ .ok (str "f(") := by
  refine ⟨rfl, ?_⟩
  intro h
  rw [show callablePostfix (.obj true (.fails (.userError 7)) 0) (str "f")
        = .error (.userError 7) from rfl] at h
  exact Except.noConfusion h

/-- C5, amended: for a callable candidate an opening marker is appended; a
closing marker is appended additionally exactly when signature
introspection reports zero parameters; a `ValueError` from the
introspection falls back to the opening marker alone, while any *other*
introspection exception propagates; non-callables are returned
unchanged. -/
theorem callablePostfix_spec :
    (∀ w : Str, ∀ t : Nat,
      callablePostfix (.obj true (.params 0) t) w = .ok (w ++ str "()")) ∧
    (∀ w : Str, ∀ t n : Nat,
      callablePostfix (.obj true (.params (n + 1)) t) w = .ok (w ++ str "(")) ∧
    (∀ w : Str, ∀ t : Nat,
      callablePostfix (.obj true (.fails .valueError) t) w = .ok (w ++ str "(")) ∧
    (∀ w : Str, ∀ t : Nat, ∀ e : PyErr, e ≠ .valueError →
      callablePostfix (.obj true (.fails e) t) w = .error e) ∧
    (∀ w : Str, ∀ v : PyValue, v.isCallable = false → callablePostfix v w = .ok w) := by
  refine ⟨fun w t => ?_, fun w t n => ?_, fun w t => ?_, fun w t e he => ?_, fun w v hv => ?_⟩
  · simp [callablePostfix, PyValue.isCallable, PyValue.sigInfo, str]
  · simp [callablePostfix, PyValue.isCallable, PyValue.sigInfo]
  · simp [callablePostfix, PyValue.isCallable, PyValue.sigInfo]
  · simp [callablePostfix, PyValue.isCallable, PyValue.sigInfo, he]
  · simp [callablePostfix, hv]

/-- C5, witness for the amended statement at concrete inputs. -/
theorem callablePostfix_spec_witness :
    callablePostfix (.obj true (.params 0) 0) (str "f") = .ok (str "f" ++ str "()") ∧
    callablePostfix (.obj true (.fails .typeError) 0) (str "f") = .error .typeError ∧
    callablePostfix plainValue (str "f") = .ok (str "f") :=
  ⟨callablePostfix_spec.1 (str "f") 0,
   callablePostfix_spec.2.2.2.1 (str "f") 0 .typeError (by decide),
   callablePostfix_spec.2.2.2.2 (str "f") plainValue rfl⟩

/-! ### C2 — the dotted-name pattern is matched as an anchored prefix -/

/-- C2, counterexample: `attr_matches("foo.bar(")` — a text that does not
match the dotted shape in its entirety — does not return an empty list: the
anchored regex match succeeds on the prefix `foo.bar`, `foo` is resolved,
and its member `barx` is completed. -/
theorem attrMatches_trailing_junk_still_matches :
    matchesOf (attrMatches cexC2 (str "foo.bar(")) = some [str "foo.barx"] := by
  decide

/-- C2, amended: the pattern `(\w+(\.\w+)*)\.(\w*)` is matched anchored at
the start of the text but not against its entirety; only when no prefix of
the text matches it (no leading word-run followed by a dot) does
`attr_matches` return an empty list immediately, with no resolution and no
filtering (the result is the same for every evaluation oracle and every
filter chain, with an empty event trace). -/
theorem attrMatches_no_anchored_match_empty (c : Completer) (text : Str)
    (h : rlMatch text = none) : attrMatches c text = .ok ([], []) := by
  unfold attrMatches
  rw [h]

/-- C2, witness: a text whose leading word-run is not followed by a dot. -/
theorem attrMatches_no_anchored_match_empty_witness :
    attrMatches cexC2 (str "foo(") = .ok ([], []) :=
  attrMatches_no_anchored_match_empty cexC2 (str "foo(") (by decide)

/-! ### C1 — exception handling of the top-level completion call -/

/-- C1, counterexample: an exception raised inside a user-registered
namespace-filter predicate during `complete(text, 0)` for non-blank text is
*not* suppressed — `warnings.catch_warnings` only silences warnings, so the
exception propagates to the caller. -/
theorem complete_filter_exception_propagates :
    complete cexC1 false [] (str "sp") 0 = .error (.userError 1) ∧
    blankText (str "sp") = false := by
  exact ⟨rfl, rfl⟩

/-- C1, amended: `complete(text, 0)` on non-blank dotted text suppresses
any exception raised while resolving the dotted-name chain (the guarded
`eval`), returning the no-more-matches terminal instead; exceptions raised
elsewhere in the matching/filtering pipeline — e.g. inside a
user-registered filter predicate — propagate. -/
theorem complete_swallows_resolution_errors (c : Completer) (text expr attr : Str)
    (cached : List Str) (ra : Bool) (e : PyErr)
    (hb : blankText text = false)
    (hd : text.contains '.' = true)
    (hm : rlMatch text = some (expr, attr))
    (he : c.evalFn expr = .error e) :
    complete c ra cached text 0 = .ok (.noMore, []) := by
  have h1 : attrMatches c text = .ok ([], []) := by
    unfold attrMatches
    rw [hm]
    dsimp only
    rw [he]
  have hd2 : '.' ∈ text := by simpa using hd
  simp [complete, hb, getMatches, hd2, h1]

/-- C1, witness for the amended statement: resolution of `boom` fails, the
completion call returns the terminal value with no exception. -/
theorem complete_swallows_resolution_errors_witness :
    complete cexC2 false [] (str "boom.x") 0 = .ok (.noMore, []) :=
  complete_swallows_resolution_errors cexC2 (str "boom.x") (str "boom") (str "x")
    [] false .typeError (by decide) (by decide) (by decide) rfl

/-! ### C3 — progressive underscore relaxation -/

theorem suppressed_ddunder_empty_attr (w : Str) :
    suppressed (some (str "__")) 0 w = false := by
  unfold suppressed
  rw [beq_eq_false_iff_ne]
  intro h
  have hlen := congrArg List.length h
  simp [str] at hlen
  omega

theorem attrWord_ddunder_eq_none (fs : List AttrPred) (o : PyObject)
    (expr text w : Str) :
    attrWord fs o expr [] text (some (str "__")) w
      = attrWord fs o expr [] text none w := by
  unfold attrWord
  simp only [List.length_nil, suppressed_ddunder_empty_attr]
  rfl

theorem attrRound_ddunder_eq_none (fs : List AttrPred) (o : PyObject)
    (expr text : Str) :
    ∀ ws, attrRound fs o expr [] text (some (str "__")) ws
      = attrRound fs o expr [] text none ws := by
  intro ws
  induction ws with
  | nil => rfl
  | cons w ws ih =>
    unfold attrRound
    rw [attrWord_ddunder_eq_none, ih]

/-- C3, counterexample: over an object with members `_a` and `__b` (all
hidden by the initial empty-suffix rule), the code's first retry *already
admits* `__b` — the relaxed two-underscore threshold compares only
`word[:1]` against `'__'` and hence suppresses nothing — while the
stepwise relaxation the claim describes admits only `_a` on the first
retry and stops there. -/
theorem attrMatches_relaxation_counterexample :
    matchesOf (attrMatches cexC3 (str "a.")) = some [str "a.__b", str "a._a"] ∧
    specRelaxMatches [str "_a", str "__b"] (str "a") [] = [str "a._a"] := by
  exact ⟨by decide, by decide⟩

/-- C3, amended: candidates are first computed under the suppression rule
derived from `attr` (as claimed), and `noPrefix` is relaxed stepwise
(`'_'`, then `'__'`, then none) retrying while the result is empty; but
because the comparison truncates the member name to `len(attr)+1`
characters, for an empty `attr` the relaxed `'__'` threshold is inert: a
pass under it equals a pass with no suppression at all, so the first retry
already admits every member, including those beginning with two
underscores, and the loop's final matches are exactly those of the
unsuppressed pass. -/
theorem attr_relax_empty_suffix (fs : List AttrPred) (o : PyObject)
    (expr text : Str) :
    (∀ ws, attrRound fs o expr [] text (some (str "__")) ws
        = attrRound fs o expr [] text none ws) ∧
    (∀ tr1 ms2 tr2,
      attrRound fs o expr [] text (some (str "_")) (objectWords o) = .ok ([], tr1) →
      attrRound fs o expr [] text none (objectWords o) = .ok (ms2, tr2) →
      ∃ tr, attrWhile fs o expr [] text (initNoPrefix []) = .ok (ms2, tr)) := by
  refine ⟨attrRound_ddunder_eq_none fs o expr text, ?_⟩
  intro tr1 ms2 tr2 h1 h2
  have e1 : attrRound fs o expr [] text (some (str "__")) (objectWords o)
      = .ok (ms2, tr2) := by
    rw [attrRound_ddunder_eq_none]
    exact h2
  have e0 : attrWhileGo fs o expr [] text 0 none = .ok (ms2, tr2) := by
    unfold attrWhileGo
    exact h2
  by_cases hms : ms2.isEmpty = true
  · have eg1 : attrWhileGo fs o expr [] text 1 (some (str "__"))
        = .ok (ms2, tr2 ++ tr2) := by
      unfold attrWhileGo
      rw [e1]
      simp only [hms, if_true]
      have hif : (if (str "__" == str "_") = true then some (str "__") else none)
          = none := by decide
      rw [hif, e0]
    refine ⟨tr1 ++ (tr2 ++ tr2), ?_⟩
    show attrWhileGo fs o expr [] text 2 (some (str "_")) = _
    unfold attrWhileGo
    rw [h1]
    simp only [List.isEmpty_nil, if_true]
    have hif : (if (str "_" == str "_") = true then some (str "__") else none)
        = some (str "__") := by decide
    rw [hif, eg1]
  · have eg1 : attrWhileGo fs o expr [] text 1 (some (str "__"))
        = .ok (ms2, tr2) := by
      unfold attrWhileGo
      rw [e1]
      simp [hms]
    refine ⟨tr1 ++ tr2, ?_⟩
    show attrWhileGo fs o expr [] text 2 (some (str "_")) = _
    unfold attrWhileGo
    rw [h1]
    simp only [List.isEmpty_nil, if_true]
    have hif : (if (str "_" == str "_") = true then some (str "__") else none)
        = some (str "__") := by decide
    rw [hif, eg1]

/-- C3, witness for the amended statement: over an object whose only
member is `_a`, the initial empty-suffix pass is empty and the loop ends
with exactly the unsuppressed pass's matches. -/
theorem attr_relax_empty_suffix_witness :
    ∃ tr, attrWhile [] witC3Obj (str "a") [] (str "a.") (initNoPrefix [])
      = .ok ([str "a._a"], tr) :=
  (attr_relax_empty_suffix [] witC3Obj (str "a") (str "a.")).2 []
    [str "a._a"]
    [AttrEvent.valueAccess (str "_a"),
     AttrEvent.filterQuery (str "_a") PyValue.none noOptions]
    (by decide) (by decide)

/-! ### C7 — the filter registry -/

theorem addFilter_mem (c : List RFilter) (f : RFilter) (hc : ChainSorted c)
    (hf : f ∈ c) : addFilter c f = (false, c) := by
  induction c with
  | nil => cases hf
  | cons g rest ih =>
    unfold addFilter
    by_cases hg : g = f
    · rw [if_pos hg]
    · rw [if_neg hg]
      have hfr : f ∈ rest := by
        rcases List.mem_cons.mp hf with h | h
        · exact absurd h.symm hg
        · exact h
      have hle : g.priority ≤ f.priority := (List.pairwise_cons.mp hc).1 f hfr
      rw [if_neg (by omega : ¬ f.priority < g.priority)]
      rw [ih (List.pairwise_cons.mp hc).2 hfr]

theorem addFilter_not_mem (c : List RFilter) (f : RFilter) (hc : ChainSorted c)
    (hf : f ∉ c) :
    ∃ A B, c = A ++ B ∧ addFilter c f = (true, A ++ f :: B) ∧
      (∀ g ∈ A, g.priority ≤ f.priority) ∧ (∀ g ∈ B, f.priority < g.priority) := by
  induction c with
  | nil => exact ⟨[], [], rfl, rfl, by simp, by simp⟩
  | cons g rest ih =>
    have hgf : ¬ g = f := fun h => hf (h ▸ List.mem_cons_self g rest)
    by_cases hlt : f.priority < g.priority
    · refine ⟨[], g :: rest, rfl, ?_, by simp, ?_⟩
      · unfold addFilter
        rw [if_neg hgf, if_pos hlt]
        rfl
      · intro x hx
        rcases List.mem_cons.mp hx with h | h
        · rw [h]
          exact hlt
        · have := (List.pairwise_cons.mp hc).1 x h
          omega
    · obtain ⟨A, B, hAB, hadd, hA, hB⟩ :=
        ih (List.pairwise_cons.mp hc).2 (fun h => hf (List.mem_cons_of_mem g h))
      refine ⟨g :: A, B, by rw [hAB, List.cons_append], ?_, ?_, hB⟩
      · unfold addFilter
        rw [if_neg hgf, if_neg hlt, hadd]
        rfl
      · intro x hx
        rcases List.mem_cons.mp hx with h | h
        · rw [h]
          omega
        · exact hA x h

theorem addFilter_sorted (c : List RFilter) (f : RFilter) (hc : ChainSorted c) :
    ChainSorted (addFilter c f).2 := by
  by_cases hf : f ∈ c
  · rw [addFilter_mem c f hc hf]
    exact hc
  · obtain ⟨A, B, hAB, hadd, hA, hB⟩ := addFilter_not_mem c f hc hf
    rw [hadd]
    subst hAB
    unfold ChainSorted at hc ⊢
    rw [List.pairwise_append] at hc
    rw [List.pairwise_append]
    refine ⟨hc.1, ?_, ?_⟩
    · rw [List.pairwise_cons]
      exact ⟨fun b hb => le_of_lt (hB b hb), hc.2.1⟩
    · intro a ha b hb
      rcases List.mem_cons.mp hb with h | h
      · rw [h]
        exact hA a ha
      · exact hc.2.2 a ha b h

theorem buildChain_sorted (l : List RFilter) : ChainSorted (buildChain l) := by
  suffices h : ∀ c, ChainSorted c →
      ChainSorted (l.foldl (fun c f => (addFilter c f).2) c) from h [] List.Pairwise.nil
  induction l with
  | nil => exact fun c hc => hc
  | cons f l ih => exact fun c hc => ih _ (addFilter_sorted c f hc)

/-- C7: `_add_filter` keeps a chain sorted by non-decreasing priority with
insertion order preserved among equal priorities — every chain built by a
sequence of adds is sorted, and a new filter lands after every entry of
priority at most its own and before every entry of strictly larger
priority; registering priorities 50, 10, 10, 500, 500 in that order yields
chain order 10, 10, 50, 500, 500; and adding a filter equal to one already
present returns false and leaves the chain unmodified. -/
theorem filter_chain_add_spec (c : List RFilter) (f : RFilter) (hc : ChainSorted c) :
    (∀ l, ChainSorted (buildChain l)) ∧
    ChainSorted (addFilter c f).2 ∧
    (f ∈ c → addFilter c f = (false, c)) ∧
    (f ∉ c → (addFilter c f).1 = true ∧ ∃ A B, c = A ++ B ∧
      (addFilter c f).2 = A ++ f :: B ∧
      (∀ g ∈ A, g.priority ≤ f.priority) ∧ (∀ g ∈ B, f.priority < g.priority)) ∧
    buildChain [⟨1, 50⟩, ⟨2, 10⟩, ⟨3, 10⟩, ⟨4, 500⟩, ⟨5, 500⟩]
      = [⟨2, 10⟩, ⟨3, 10⟩, ⟨1, 50⟩, ⟨4, 500⟩, ⟨5, 500⟩] := by
  refine ⟨buildChain_sorted, addFilter_sorted c f hc, addFilter_mem c f hc, ?_, by decide⟩
  intro hf
  obtain ⟨A, B, hAB, hadd, hA, hB⟩ := addFilter_not_mem c f hc hf
  exact ⟨by rw [hadd], A, B, hAB, by rw [hadd], hA, hB⟩

/-- C7, witness: the duplicate case and the priority example at concrete
inputs. -/
theorem filter_chain_add_spec_witness :
    addFilter [⟨2, 10⟩] (⟨2, 10⟩ : RFilter) = (false, [⟨2, 10⟩]) ∧
    buildChain [⟨1, 50⟩, ⟨2, 10⟩, ⟨3, 10⟩, ⟨4, 500⟩, ⟨5, 500⟩]
      = [⟨2, 10⟩, ⟨3, 10⟩, ⟨1, 50⟩, ⟨4, 500⟩, ⟨5, 500⟩] :=
  ⟨(filter_chain_add_spec [⟨2, 10⟩] ⟨2, 10⟩ (by simp [ChainSorted])).2.2.1 (by decide),
   (filter_chain_add_spec [] ⟨0, 0⟩ List.Pairwise.nil).2.2.2.2⟩

/-! ### Undecoration lemmas -/

theorem not_suffix_wordOnly (b d : Str) (hb : wordOnly b = true) (c : Char)
    (hc : c ∈ d) (hcw : wordChar c = false) : d.isSuffixOf b = false := by
  by_contra h
  rw [Bool.not_eq_false] at h
  have hs : d <:+ b := List.isSuffixOf_iff_suffix.mp h
  have hcb : c ∈ b := List.IsSuffix.mem hc hs
  have := List.all_eq_true.mp hb c hcb
  rw [hcw] at this
  cases this

theorem suffix_last_mismatch (p b : Str) (c2 c1 : Char) (hne : c2 ≠ c1) :
    (p ++ [c2]).isSuffixOf (b ++ [c1]) = false := by
  by_contra h
  rw [Bool.not_eq_false] at h
  have hs : (p ++ [c2]) <:+ (b ++ [c1]) := List.isSuffixOf_iff_suffix.mp h
  have hp : (p ++ [c2]).reverse <+: (b ++ [c1]).reverse := List.reverse_prefix.mpr hs
  rw [List.reverse_append, List.reverse_append] at hp
  simp only [List.reverse_singleton, List.singleton_append] at hp
  exact hne (List.cons_prefix_cons.mp hp).1

theorem stripDecoration_append (b d : Str) (hb : wordOnly b = true)
    (hd : d ∈ decoSet) : stripDecoration (b ++ d) = b := by
  have hparen : wordChar '(' = false := by decide
  have hrparen : wordChar ')' = false := by decide
  have hcolon : wordChar ':' = false := by decide
  have hspace : wordChar ' ' = false := by decide
  rcases (by simpa [decoSet] using hd :
      d = [] ∨ d = str "(" ∨ d = str "()" ∨ d = str ":" ∨ d = str " ") with
    h | h | h | h | h <;> subst h
  · rw [List.append_nil]
    unfold stripDecoration
    rw [not_suffix_wordOnly b (str "()") hb '(' (by decide) hparen]
    rw [not_suffix_wordOnly b (str "(") hb '(' (by decide) hparen]
    rw [not_suffix_wordOnly b (str ":") hb ':' (by decide) hcolon]
    rw [not_suffix_wordOnly b (str " ") hb ' ' (by decide) hspace]
    rfl
  · unfold stripDecoration
    have t1 : (str "()").isSuffixOf (b ++ str "(") = false :=
      suffix_last_mismatch ['('] b ')' '(' (by decide)
    have t2 : (str "(").isSuffixOf (b ++ str "(") = true :=
      List.isSuffixOf_iff_suffix.mpr (List.suffix_append b (str "("))
    simp only [t1, t2, Bool.false_eq_true, if_false, if_true]
    simp [show str "(" = ['('] from rfl]
  · unfold stripDecoration
    have t1 : (str "()").isSuffixOf (b ++ str "()") = true :=
      List.isSuffixOf_iff_suffix.mpr (List.suffix_append b (str "()"))
    simp only [t1, if_true]
    have hsplit : b ++ str "()" = (b ++ ['(']) ++ [')'] := by
      simp [show str "()" = ['(', ')'] from rfl]
    rw [hsplit]
    simp
  · unfold stripDecoration
    have t1 : (str "()").isSuffixOf (b ++ str ":") = false :=
      suffix_last_mismatch ['('] b ')' ':' (by decide)
    have t2 : (str "(").isSuffixOf (b ++ str ":") = false :=
      suffix_last_mismatch [] b '(' ':' (by decide)
    have t3 : (str ":").isSuffixOf (b ++ str ":") = true :=
      List.isSuffixOf_iff_suffix.mpr (List.suffix_append b (str ":"))
    simp only [t1, t2, t3, Bool.false_eq_true, if_false, if_true]
    simp [show str ":" = [':'] from rfl]
  · unfold stripDecoration
    have t1 : (str "()").isSuffixOf (b ++ str " ") = false :=
      suffix_last_mismatch ['('] b ')' ' ' (by decide)
    have t2 : (str "(").isSuffixOf (b ++ str " ") = false :=
      suffix_last_mismatch [] b '(' ' ' (by decide)
    have t3 : (str ":").isSuffixOf (b ++ str " ") = false :=
      suffix_last_mismatch [] b ':' ' ' (by decide)
    have t4 : (str " ").isSuffixOf (b ++ str " ") = true :=
      List.isSuffixOf_iff_suffix.mpr (List.suffix_append b (str " "))
    simp only [t1, t2, t3, t4, Bool.false_eq_true, if_false, if_true]
    simp [show str " " = [' '] from rfl]

theorem decorateKeyword_decomp (w : Str) :
    ∃ d ∈ decoSet, decorateKeyword w = w ++ d := by
  unfold decorateKeyword
  by_cases h1 : (w == str "finally" || w == str "try") = true
  · rw [if_pos h1]
    exact ⟨str ":", by decide, rfl⟩
  · rw [if_neg h1]
    by_cases h2 : (w == str "False" || w == str "None" || w == str "True" ||
        w == str "break" || w == str "continue" || w == str "pass" ||
        w == str "else" || w == str "_") = true
    · rw [if_pos h2]
      exact ⟨[], by decide, (List.append_nil w).symm⟩
    · rw [if_neg h2]
      exact ⟨str " ", by decide, rfl⟩

theorem callablePostfix_decomp (v : PyValue) (w m : Str)
    (h : callablePostfix v w = .ok m) : ∃ d ∈ decoSet, m = w ++ d := by
  unfold callablePostfix at h
  by_cases hc : v.isCallable = true
  · rw [if_pos hc] at h
    cases hs : v.sigInfo with
    | params n =>
      rw [hs] at h
      cases n with
      | zero =>
        refine ⟨str "()", by decide, ?_⟩
        cases h
        simp [show str "()" = ['(', ')'] from rfl, show str "(" = ['('] from rfl,
          show str ")" = [')'] from rfl]
      | succ k =>
        refine ⟨str "(", by decide, ?_⟩
        cases h
        rfl
    | fails e =>
      rw [hs] at h
      dsimp only at h
      by_cases he : e = .valueError
      · rw [if_pos he] at h
        refine ⟨str "(", by decide, ?_⟩
        cases h
        rfl
      · rw [if_neg he] at h
        cases h
  · rw [if_neg hc] at h
    refine ⟨[], by decide, ?_⟩
    cases h
    exact (List.append_nil w).symm

theorem kwScan_eq (text : Str) (ws : List Str) :
    kwScan text ws = ((ws.filter (fun w => pyPrefix w text)).map decorateKeyword,
                      ws.filter (fun w => pyPrefix w text)) := by
  induction ws with
  | nil => rfl
  | cons w ws ih =>
    unfold kwScan
    rw [ih]
    by_cases h : pyPrefix w text = true
    · simp [List.filter_cons, h]
    · simp [List.filter_cons, h]

theorem keywords_nodup : (kwlist ++ softkwlist).Nodup := by decide

theorem keywords_wordOnly : ∀ w ∈ kwlist ++ softkwlist, wordOnly w = true := by decide

theorem strContains_iff (sn : List Str) (w : Str) : sn.contains w = true ↔ w ∈ sn :=
  List.elem_iff

/-- Specification of one pass of the namespace loop of `global_matches`:
the `seen` set only grows and absorbs every prefix-matching key of the
pass; the match list is extended by one decorated candidate per newly
seen, filter-accepted key, with pairwise distinct base names, every base
being a previously unseen prefix-matching key of the pass that the filter
chain accepted and `_callable_postfix` decorated. -/
theorem nsScan_spec (fs : List NsPred) (tgt : Dict) (text : Str) :
    ∀ (entries : List (Str × PyValue)) (ms sn ms' sn' : List Str),
    nsScan fs tgt text entries ms sn = .ok (ms', sn') →
    (∀ s ∈ sn, s ∈ sn') ∧
    (∀ e ∈ entries, pyPrefix e.1 text = true → e.1 ∈ sn') ∧
    ∃ xs : List (Str × Str),
      ms' = ms ++ xs.map Prod.snd ∧
      (xs.map Prod.fst).Nodup ∧
      ∀ p ∈ xs, p.1 ∉ sn ∧ p.1 ∈ sn' ∧ pyPrefix p.1 text = true ∧
        ∃ v, (p.1, v) ∈ entries ∧ runNsFilters fs tgt p.1 v text = .ok true ∧
          callablePostfix v p.1 = .ok p.2 := by
  intro entries
  induction entries with
  | nil =>
    intro ms sn ms' sn' h
    unfold nsScan at h
    cases h
    refine ⟨fun s hs => hs, by simp, [], by simp, by simp, by simp⟩
  | cons ev rest ih =>
    obtain ⟨w, v⟩ := ev
    intro ms sn ms' sn' h
    unfold nsScan at h
    by_cases hcond : (pyPrefix w text && !(sn.contains w)) = true
    · rw [if_pos hcond] at h
      have hpre : pyPrefix w text = true := (Bool.and_eq_true_iff.mp hcond).1
      have hnsn : w ∉ sn := by
        intro hw
        have h2 := (Bool.and_eq_true_iff.mp hcond).2
        rw [Bool.not_eq_eq_eq_not, Bool.not_true] at h2
        rw [(strContains_iff sn w).mpr hw] at h2
        cases h2
      cases hfil : runNsFilters fs tgt w v text with
      | error e =>
        rw [hfil] at h
        cases h
      | ok b =>
        cases b with
        | false =>
          rw [hfil] at h
          obtain ⟨hsub, hkeys, xs, hmseq, hnd, hxs⟩ := ih ms (w :: sn) ms' sn' h
          refine ⟨fun s hs => hsub s (List.mem_cons_of_mem w hs), ?_, xs, hmseq, hnd, ?_⟩
          · intro e he hp
            rcases List.mem_cons.mp he with h1 | h1
            · rw [h1]
              exact hsub w (List.mem_cons_self w sn)
            · exact hkeys e h1 hp
          · intro p hp
            obtain ⟨hp1, hp2, hp3, v', hv1, hv2, hv3⟩ := hxs p hp
            exact ⟨fun hmem => hp1 (List.mem_cons_of_mem w hmem), hp2, hp3,
              v', List.mem_cons_of_mem _ hv1, hv2, hv3⟩
        | true =>
          rw [hfil] at h
          cases hpost : callablePostfix v w with
          | error e =>
            rw [hpost] at h
            cases h
          | ok m =>
            rw [hpost] at h
            obtain ⟨hsub, hkeys, xs, hmseq, hnd, hxs⟩ := ih (ms ++ [m]) (w :: sn) ms' sn' h
            refine ⟨fun s hs => hsub s (List.mem_cons_of_mem w hs), ?_,
              (w, m) :: xs, ?_, ?_, ?_⟩
            · intro e he hp
              rcases List.mem_cons.mp he with h1 | h1
              · rw [h1]
                exact hsub w (List.mem_cons_self w sn)
              · exact hkeys e h1 hp
            · rw [hmseq]
              simp
            · rw [List.map_cons, List.nodup_cons]
              refine ⟨?_, hnd⟩
              intro hw
              obtain ⟨p, hp, hp1⟩ := List.mem_map.mp hw
              obtain ⟨hq1, _, _, _⟩ := hxs p hp
              exact hq1 (hp1 ▸ List.mem_cons_self w sn)
            · intro p hp
              rcases List.mem_cons.mp hp with h1 | h1
              · rw [h1]
                exact ⟨hnsn, hsub w (List.mem_cons_self w sn), hpre,
                  v, List.mem_cons_self _ _, hfil, hpost⟩
              · obtain ⟨hp1, hp2, hp3, v', hv1, hv2, hv3⟩ := hxs p h1
                exact ⟨fun hmem => hp1 (List.mem_cons_of_mem w hmem), hp2, hp3,
                  v', List.mem_cons_of_mem _ hv1, hv2, hv3⟩
    · rw [if_neg hcond] at h
      obtain ⟨hsub, hkeys, xs, hmseq, hnd, hxs⟩ := ih ms sn ms' sn' h
      refine ⟨hsub, ?_, xs, hmseq, hnd, ?_⟩
      · intro e he hp
        rcases List.mem_cons.mp he with h1 | h1
        · rw [h1]
          rw [h1] at hp
          have hws : w ∈ sn := by
            by_contra hws
            apply hcond
            have h1 : sn.contains w = false := by
              rw [← Bool.not_eq_true]
              intro hc
              exact hws ((strContains_iff sn w).mp hc)
            rw [hp, h1]
            rfl
          exact hsub w hws
        · exact hkeys e h1 hp
      · intro p hp
        obtain ⟨hp1, hp2, hp3, v', hv1, hv2, hv3⟩ := hxs p hp
        exact ⟨hp1, hp2, hp3, v', List.mem_cons_of_mem _ hv1, hv2, hv3⟩

/-- Full decomposition of a successful `global_matches` run: the result is
the decorated prefix-matching keywords followed by the accepted
namespace-phase candidates followed by the accepted builtins-phase
candidates, with the bookkeeping facts about the `seen` set that the
dedup arguments need. -/
theorem globalMatches_decomp (c : Completer) (text : Str) (ms : List Str)
    (h : globalMatches c text = .ok ms) :
    ∃ (xs1 xs2 : List (Str × Str)) (sn1 sn2 : List Str),
      ms = (((kwlist ++ softkwlist).filter (fun w => pyPrefix w text)).map decorateKeyword
              ++ xs1.map Prod.snd) ++ xs2.map Prod.snd ∧
      (xs1.map Prod.fst).Nodup ∧
      (xs2.map Prod.fst).Nodup ∧
      (∀ s ∈ str "__builtins__" ::
          (kwlist ++ softkwlist).filter (fun w => pyPrefix w text), s ∈ sn1) ∧
      (∀ s ∈ sn1, s ∈ sn2) ∧
      (∀ e ∈ c.ns, pyPrefix e.1 text = true → e.1 ∈ sn1) ∧
      (∀ p ∈ xs1,
        p.1 ∉ str "__builtins__" ::
          (kwlist ++ softkwlist).filter (fun w => pyPrefix w text) ∧
        p.1 ∈ sn1 ∧ pyPrefix p.1 text = true ∧
        ∃ v, (p.1, v) ∈ c.ns ∧ runNsFilters c.nsFilters c.ns p.1 v text = .ok true ∧
          callablePostfix v p.1 = .ok p.2) ∧
      (∀ p ∈ xs2,
        p.1 ∉ sn1 ∧ pyPrefix p.1 text = true ∧
        ∃ v, (p.1, v) ∈ c.builtins ∧
          runNsFilters c.nsFilters c.builtins p.1 v text = .ok true ∧
          callablePostfix v p.1 = .ok p.2) := by
  have hkw : kwPhase text
      = (((kwlist ++ softkwlist).filter (fun w => pyPrefix w text)).map decorateKeyword,
         str "__builtins__" ::
           (kwlist ++ softkwlist).filter (fun w => pyPrefix w text)) := by
    unfold kwPhase
    rw [kwScan_eq]
  unfold globalMatches at h
  rw [hkw] at h
  dsimp only at h
  cases hns1 : nsScan c.nsFilters c.ns text c.ns
      (((kwlist ++ softkwlist).filter (fun w => pyPrefix w text)).map decorateKeyword)
      (str "__builtins__" :: (kwlist ++ softkwlist).filter (fun w => pyPrefix w text)) with
  | error e =>
    rw [hns1] at h
    cases h
  | ok pair1 =>
    obtain ⟨ms1, sn1⟩ := pair1
    rw [hns1] at h
    dsimp only at h
    cases hns2 : nsScan c.nsFilters c.builtins text c.builtins ms1 sn1 with
    | error e =>
      rw [hns2] at h
      cases h
    | ok pair2 =>
      obtain ⟨ms2, sn2⟩ := pair2
      rw [hns2] at h
      dsimp only at h
      cases h
      obtain ⟨hsub1, hkeys1, xs1, hms1, hnd1, hxs1⟩ := nsScan_spec _ _ _ _ _ _ _ _ hns1
      obtain ⟨hsub2, _, xs2, hms2, hnd2, hxs2⟩ := nsScan_spec _ _ _ _ _ _ _ _ hns2
      refine ⟨xs1, xs2, sn1, sn2, ?_, hnd1, hnd2, hsub1, hsub2, hkeys1, ?_, ?_⟩
      · rw [hms2, hms1]
      · intro p hp
        obtain ⟨hp1, hp2, hp3, hv⟩ := hxs1 p hp
        exact ⟨hp1, hp2, hp3, hv⟩
      · intro p hp
        obtain ⟨hp1, _, hp3, hv⟩ := hxs2 p hp
        exact ⟨hp1, hp3, hv⟩

/-! ### C8 — prefix and dedup of bare-name matching -/

/-- C8, counterexample: over a scope with the adversarial keys `x` and
`x(`, bare-name matching for `x` returns two candidates whose undecorated
forms coincide, so the dedup half of the claim fails for that scope. -/
theorem global_matches_dedup_counterexample :
    globalMatches cexC8 (str "x") = .ok [str "x", str "x("] ∧
    stripDecoration (str "x") = stripDecoration (str "x(") := by
  exact ⟨by rfl, by decide⟩

/-- C8, amended: provided every scope key consists of word characters only
(ordinary identifiers — keys containing decoration characters such as `x(`
break the claim), every candidate returned by `global_matches` has `text`
as a literal prefix of its undecorated form, and no two returned
candidates share the same undecorated base name. -/
theorem global_matches_prefix_dedup (c : Completer) (text : Str) (ms : List Str)
    (hks : ∀ p ∈ c.ns ++ c.builtins, wordOnly p.1 = true)
    (h : globalMatches c text = .ok ms) :
    (∀ m ∈ ms, text <+: stripDecoration m) ∧
    (ms.map stripDecoration).Nodup := by
  obtain ⟨xs1, xs2, sn1, sn2, hms, hnd1, hnd2, hsn0, hsub, hkeys, hxs1, hxs2⟩ :=
    globalMatches_decomp c text ms h
  have hkwF : ∀ k ∈ (kwlist ++ softkwlist).filter (fun w => pyPrefix w text),
      stripDecoration (decorateKeyword k) = k ∧ pyPrefix k text = true := by
    intro k hk
    have hmem := List.mem_of_mem_filter hk
    have hpre := List.of_mem_filter hk
    obtain ⟨d, hd, hdec⟩ := decorateKeyword_decomp k
    refine ⟨?_, hpre⟩
    rw [hdec]
    exact stripDecoration_append k d (keywords_wordOnly k hmem) hd
  have hx1 : ∀ p ∈ xs1, stripDecoration p.2 = p.1 ∧ pyPrefix p.1 text = true := by
    intro p hp
    obtain ⟨_, _, hp3, v, hv1, _, hv3⟩ := hxs1 p hp
    obtain ⟨d, hd, hdec⟩ := callablePostfix_decomp v p.1 p.2 hv3
    have hw : wordOnly p.1 = true := hks (p.1, v) (List.mem_append_left _ hv1)
    rw [hdec]
    exact ⟨stripDecoration_append p.1 d hw hd, hp3⟩
  have hx2 : ∀ p ∈ xs2, stripDecoration p.2 = p.1 ∧ pyPrefix p.1 text = true := by
    intro p hp
    obtain ⟨_, hp3, v, hv1, _, hv3⟩ := hxs2 p hp
    obtain ⟨d, hd, hdec⟩ := callablePostfix_decomp v p.1 p.2 hv3
    have hw : wordOnly p.1 = true := hks (p.1, v) (List.mem_append_right _ hv1)
    rw [hdec]
    exact ⟨stripDecoration_append p.1 d hw hd, hp3⟩
  constructor
  · intro m hm
    rw [hms] at hm
    rcases List.mem_append.mp hm with hm | hm
    · rcases List.mem_append.mp hm with hm | hm
      · obtain ⟨k, hk, hkm⟩ := List.mem_map.mp hm
        rw [← hkm, (hkwF k hk).1]
        exact (pyPrefix_iff k text).mp (hkwF k hk).2
      · obtain ⟨p, hp, hpm⟩ := List.mem_map.mp hm
        rw [← hpm, (hx1 p hp).1]
        exact (pyPrefix_iff p.1 text).mp (hx1 p hp).2
    · obtain ⟨p, hp, hpm⟩ := List.mem_map.mp hm
      rw [← hpm, (hx2 p hp).1]
      exact (pyPrefix_iff p.1 text).mp (hx2 p hp).2
  · rw [hms, List.map_append, List.map_append]
    have e1 : (((kwlist ++ softkwlist).filter
          (fun w => pyPrefix w text)).map decorateKeyword).map stripDecoration
        = (kwlist ++ softkwlist).filter (fun w => pyPrefix w text) := by
      rw [List.map_map]
      have h1 : ∀ k ∈ (kwlist ++ softkwlist).filter (fun w => pyPrefix w text),
          (stripDecoration ∘ decorateKeyword) k = id k := fun k hk => (hkwF k hk).1
      rw [List.map_congr_left h1, List.map_id]
    have e2 : (xs1.map Prod.snd).map stripDecoration = xs1.map Prod.fst := by
      rw [List.map_map]
      exact List.map_congr_left (fun p hp => (hx1 p hp).1)
    have e3 : (xs2.map Prod.snd).map stripDecoration = xs2.map Prod.fst := by
      rw [List.map_map]
      exact List.map_congr_left (fun p hp => (hx2 p hp).1)
    rw [e1, e2, e3]
    rw [List.nodup_append, List.nodup_append]
    refine ⟨⟨keywords_nodup.filter _, hnd1, ?_⟩, hnd2, ?_⟩
    · intro a ha ha1
      obtain ⟨p, hp, hpa⟩ := List.mem_map.mp ha1
      obtain ⟨hp1, _, _, _⟩ := hxs1 p hp
      exact hp1 (hpa ▸ List.mem_cons_of_mem _ ha)
    · intro a ha ha2
      obtain ⟨p2, hp2, hpa2⟩ := List.mem_map.mp ha2
      obtain ⟨hq1, _, _⟩ := hxs2 p2 hp2
      apply hq1
      rw [hpa2]
      rcases List.mem_append.mp ha with ha | ha
      · exact hsn0 a (List.mem_cons_of_mem _ ha)
      · obtain ⟨p1, hp1, hpa1⟩ := List.mem_map.mp ha
        obtain ⟨_, hq2, _, _⟩ := hxs1 p1 hp1
        exact hpa1 ▸ hq2


/-- C8, witness for the amended statement: scope with key `w` and text
`w`; the candidates are the keywords `while `, `with ` and the entry
`w`. -/
theorem global_matches_prefix_dedup_witness :
    (str "w") <+: stripDecoration (str "while ") ∧
    (([str "while ", str "with ", str "w"]).map stripDecoration).Nodup :=
  ⟨(global_matches_prefix_dedup witC8 (str "w") [str "while ", str "with ", str "w"]
      (by decide) (by rfl)).1 (str "while ") (by decide),
   (global_matches_prefix_dedup witC8 (str "w") [str "while ", str "with ", str "w"]
      (by decide) (by rfl)).2⟩

/-! ### C9 — seen-marking precedes filtering -/

/-- C9: a prefix-matching name from the active namespace is marked seen
before the filter chain is consulted, so when the chain rejects the
active-namespace entry of `w`, no candidate for `w` appears at all — the
same-named builtins entry is blocked by the `seen` set (stated for
ordinary word-character keys; `w` is additionally assumed not to be a
keyword, since keywords are emitted independently of the namespaces). -/
theorem rejected_ns_name_blocks_builtin (c : Completer) (text w : Str)
    (ms : List Str)
    (hks : ∀ p ∈ c.ns ++ c.builtins, wordOnly p.1 = true)
    (hkw : w ∉ kwlist ++ softkwlist)
    (hns : ∃ v, (w, v) ∈ c.ns)
    (_hbi : ∃ v, (w, v) ∈ c.builtins)
    (hpre : pyPrefix w text = true)
    (hrej : ∀ p ∈ c.ns, p.1 = w →
      runNsFilters c.nsFilters c.ns w p.2 text = .ok false)
    (h : globalMatches c text = .ok ms) :
    ∀ d ∈ decoSet, w ++ d ∉ ms := by
  obtain ⟨xs1, xs2, sn1, sn2, hms, _, _, hsn0, hsub, hkeys, hxs1, hxs2⟩ :=
    globalMatches_decomp c text ms h
  intro d hd hmem
  have hw : wordOnly w = true := by
    obtain ⟨v, hv⟩ := hns
    exact hks (w, v) (List.mem_append_left _ hv)
  have hstrip : stripDecoration (w ++ d) = w := stripDecoration_append w d hw hd
  rw [hms] at hmem
  rcases List.mem_append.mp hmem with hm | hm
  · rcases List.mem_append.mp hm with hm | hm
    · obtain ⟨k, hk, hkm⟩ := List.mem_map.mp hm
      have hkmem := List.mem_of_mem_filter hk
      obtain ⟨d', hd', hdec⟩ := decorateKeyword_decomp k
      have hkw2 : k = w := by
        calc k = stripDecoration (decorateKeyword k) := by
              rw [hdec]
              exact (stripDecoration_append k d' (keywords_wordOnly k hkmem) hd').symm
          _ = stripDecoration (w ++ d) := by rw [hkm]
          _ = w := hstrip
      exact hkw (hkw2 ▸ hkmem)
    · obtain ⟨p, hp, hpm⟩ := List.mem_map.mp hm
      obtain ⟨hp1, hp2, hp3, v, hv1, hv2, hv3⟩ := hxs1 p hp
      obtain ⟨d', hd', hdec⟩ := callablePostfix_decomp v p.1 p.2 hv3
      have hwp : wordOnly p.1 = true := hks (p.1, v) (List.mem_append_left _ hv1)
      have hp1w : p.1 = w := by
        calc p.1 = stripDecoration p.2 := by
              rw [hdec]
              exact (stripDecoration_append p.1 d' hwp hd').symm
          _ = stripDecoration (w ++ d) := by rw [hpm]
          _ = w := hstrip
      have hrw := hrej (p.1, v) hv1 hp1w
      rw [hp1w] at hv2
      rw [hrw] at hv2
      exact Bool.noConfusion (Except.ok.inj hv2)
  · obtain ⟨p, hp, hpm⟩ := List.mem_map.mp hm
    obtain ⟨hp1, hp3, v, hv1, hv2, hv3⟩ := hxs2 p hp
    obtain ⟨d', hd', hdec⟩ := callablePostfix_decomp v p.1 p.2 hv3
    have hwp : wordOnly p.1 = true := hks (p.1, v) (List.mem_append_right _ hv1)
    have hp1w : p.1 = w := by
      calc p.1 = stripDecoration p.2 := by
            rw [hdec]
            exact (stripDecoration_append p.1 d' hwp hd').symm
        _ = stripDecoration (w ++ d) := by rw [hpm]
        _ = w := hstrip
    obtain ⟨vn, hvn⟩ := hns
    exact hp1 (hp1w ▸ hkeys (w, vn) hvn hpre)

/-- C9, witness: with a reject-all namespace filter and `w` present in
both the active namespace and builtins, no candidate for `w` (under any
decoration) appears; only the keywords survive. -/
theorem rejected_ns_name_blocks_builtin_witness :
    (str "w") ++ ([] : Str) ∉ [str "while ", str "with "] ∧
    (str "w") ++ str "(" ∉ [str "while ", str "with "] :=
  ⟨rejected_ns_name_blocks_builtin witC9 (str "w") (str "w")
    [str "while ", str "with "]
    (by decide) (by decide) ⟨plainValue, by decide⟩ ⟨plainValue, by decide⟩
    (by decide) (by decide) (by rfl) [] (by decide),
   rejected_ns_name_blocks_builtin witC9 (str "w") (str "w")
    [str "while ", str "with "]
    (by decide) (by decide) ⟨plainValue, by decide⟩ ⟨plainValue, by decide⟩
    (by decide) (by decide) (by rfl) (str "(") (by decide)⟩

/-! ### C10 — keywords bypass the namespace filter chain -/

theorem nsScan_reject_all (tgt : Dict) (text : Str) :
    ∀ (entries : List (Str × PyValue)) (ms sn : List Str),
    ∃ sn', nsScan [rejectAllNsFilter] tgt text entries ms sn = .ok (ms, sn') := by
  intro entries
  induction entries with
  | nil =>
    intro ms sn
    exact ⟨sn, rfl⟩
  | cons ev rest ih =>
    obtain ⟨w, v⟩ := ev
    intro ms sn
    unfold nsScan
    by_cases hcond : (pyPrefix w text && !(sn.contains w)) = true
    · rw [if_pos hcond]
      have hrun : runNsFilters [rejectAllNsFilter] tgt w v text = .ok false := rfl
      rw [hrun]
      exact ih ms (w :: sn)
    · rw [if_neg hcond]
      exact ih ms sn

/-- C10: keyword candidates are never passed through the namespace filter
chain — whenever `global_matches` returns a list at all, every
prefix-matching (soft) keyword appears in it, decorated, for any filter
chain; and with a filter that rejects every suggestion the call still
succeeds with every prefix-matching keyword in its result. -/
theorem keywords_bypass_filters (c : Completer) (text kw : Str)
    (hkw : kw ∈ kwlist ++ softkwlist) (hpre : pyPrefix kw text = true) :
    (∀ ms, globalMatches c text = .ok ms → decorateKeyword kw ∈ ms) ∧
    (∃ ms, globalMatches { c with nsFilters := [rejectAllNsFilter] } text = .ok ms ∧
      decorateKeyword kw ∈ ms) := by
  have hkwmem : decorateKeyword kw ∈
      ((kwlist ++ softkwlist).filter (fun w => pyPrefix w text)).map decorateKeyword :=
    List.mem_map_of_mem _ (List.mem_filter.mpr ⟨hkw, hpre⟩)
  constructor
  · intro ms h
    obtain ⟨xs1, xs2, _, _, hms, _⟩ := globalMatches_decomp c text ms h
    rw [hms]
    exact List.mem_append_left _ (List.mem_append_left _ hkwmem)
  · have hkwph : kwPhase text
        = (((kwlist ++ softkwlist).filter (fun w => pyPrefix w text)).map decorateKeyword,
           str "__builtins__" ::
             (kwlist ++ softkwlist).filter (fun w => pyPrefix w text)) := by
      unfold kwPhase
      rw [kwScan_eq]
    obtain ⟨sn1, h1⟩ := nsScan_reject_all c.ns text c.ns
      (((kwlist ++ softkwlist).filter (fun w => pyPrefix w text)).map decorateKeyword)
      (str "__builtins__" :: (kwlist ++ softkwlist).filter (fun w => pyPrefix w text))
    obtain ⟨sn2, h2⟩ := nsScan_reject_all c.builtins text c.builtins
      (((kwlist ++ softkwlist).filter (fun w => pyPrefix w text)).map decorateKeyword) sn1
    refine ⟨((kwlist ++ softkwlist).filter (fun w => pyPrefix w text)).map decorateKeyword,
      ?_, hkwmem⟩
    unfold globalMatches
    rw [hkwph]
    dsimp only
    rw [h1]
    dsimp only
    rw [h2]

/-- C10, witness: with a reject-all namespace filter, completing `tr`
still lists the keyword candidate `try:`. -/
theorem keywords_bypass_filters_witness :
    ∃ ms, globalMatches { cexC8 with nsFilters := [rejectAllNsFilter] } (str "tr")
        = .ok ms ∧ decorateKeyword (str "try") ∈ ms :=
  (keywords_bypass_filters cexC8 (str "tr") (str "try") (by decide) (by decide)).2

/-! ### C6 — property members: lemmas about the attribute pipeline -/

theorem mem_insertStr (x a : Str) (l : List Str) :
    a ∈ insertStr x l ↔ a = x ∨ a ∈ l := by
  induction l with
  | nil => simp [insertStr]
  | cons y ys ih =>
    unfold insertStr
    by_cases h : strLe x y = true
    · simp [h]
    · simp [h, ih]
      tauto

theorem mem_sortStrs (a : Str) (l : List Str) : a ∈ sortStrs l ↔ a ∈ l := by
  unfold sortStrs
  induction l with
  | nil => simp
  | cons x xs ih =>
    simp only [List.foldr_cons, mem_insertStr, List.mem_cons, ih]

theorem attrWord_ok (fs : List AttrPred) (o : PyObject) (expr attr text : Str)
    (np : Option Str) (w : Str) (ms : List Str) (tr : List AttrEvent)
    (h : attrWord fs o expr attr text np w = .ok (ms, tr)) :
    (∀ ev ∈ tr, ev.name = w) ∧
    (o.isProp w = true →
      (∀ ev ∈ tr, ∃ opts, ev = .filterQuery w PyValue.none opts ∧
        opts = ⟨some o.typeTag, true⟩) ∧
      (∀ m ∈ ms, m = (expr ++ str ".") ++ w)) ∧
    (o.isProp w = false →
      (∀ m ∈ ms, ∃ d ∈ decoSet, m = ((expr ++ str ".") ++ w) ++ d)) := by
  unfold attrWord at h
  by_cases hcond : (pyPrefix w attr && !(suppressed np attr.length w)) = true
  · rw [if_pos hcond] at h
    dsimp only at h
    by_cases hprop : o.isProp w = true
    · rw [if_pos hprop] at h
      cases hfil : runAttrFilters fs o w .none text ⟨some o.typeTag, true⟩ with
      | error e =>
        rw [hfil] at h
        cases h
      | ok b =>
        rw [hfil] at h
        cases b with
        | true =>
          cases h
          refine ⟨by simp [AttrEvent.name], fun _ => ⟨by simp, by simp⟩, fun hfalse => ?_⟩
          rw [hprop] at hfalse
          cases hfalse
        | false =>
          cases h
          refine ⟨by simp [AttrEvent.name], fun _ => ⟨by simp, by simp⟩, fun hfalse => ?_⟩
          rw [hprop] at hfalse
          cases hfalse
    · rw [if_neg hprop] at h
      have hprop' : o.isProp w = false := by
        rw [Bool.not_eq_true] at hprop
        exact hprop
      have hget : instanceGetattr o w = (o.instVal w, .valueAccess w) := by
        unfold instanceGetattr
        rw [hprop']
        simp
      rw [hget] at h
      dsimp only at h
      cases hfil : runAttrFilters fs o w (o.instVal w) text noOptions with
      | error e =>
        rw [hfil] at h
        cases h
      | ok b =>
        rw [hfil] at h
        cases b with
        | false =>
          cases h
          refine ⟨by simp [AttrEvent.name], fun htrue => ?_, fun _ => by simp⟩
          rw [htrue] at hprop'
          cases hprop'
        | true =>
          by_cases hv : o.instVal w = PyValue.none
          · rw [if_neg (by simp [hv])] at h
            cases h
            refine ⟨by simp [AttrEvent.name], fun htrue => ?_, fun _ => ?_⟩
            · rw [htrue] at hprop'
              cases hprop'
            · intro m hm
              rw [List.mem_singleton] at hm
              exact ⟨[], by decide, by rw [hm, List.append_nil]⟩
          · rw [if_pos (by simp [hv])] at h
            cases hpost : callablePostfix (o.instVal w) ((expr ++ str ".") ++ w) with
            | error e =>
              rw [hpost] at h
              cases h
            | ok m' =>
              rw [hpost] at h
              cases h
              refine ⟨by simp [AttrEvent.name], fun htrue => ?_, fun _ => ?_⟩
              · rw [htrue] at hprop'
                cases hprop'
              · intro m hm
                rw [List.mem_singleton] at hm
                obtain ⟨d, hd, hdec⟩ := callablePostfix_decomp _ _ _ hpost
                exact ⟨d, hd, by rw [hm, hdec]⟩
  · rw [if_neg hcond] at h
    cases h
    exact ⟨by simp, fun _ => ⟨by simp, by simp⟩, fun _ => by simp⟩

theorem attrRound_ok (fs : List AttrPred) (o : PyObject) (expr attr text : Str)
    (np : Option Str) :
    ∀ (ws : List Str) (ms : List Str) (tr : List AttrEvent),
    attrRound fs o expr attr text np ws = .ok (ms, tr) →
    (∀ ev ∈ tr, o.isProp ev.name = true →
      ∃ opts, ev = .filterQuery ev.name PyValue.none opts ∧
        opts = ⟨some o.typeTag, true⟩) ∧
    (∀ m ∈ ms, ∃ w ∈ ws,
      (o.isProp w = true ∧ m = (expr ++ str ".") ++ w) ∨
      (o.isProp w = false ∧ ∃ d ∈ decoSet, m = ((expr ++ str ".") ++ w) ++ d)) := by
  intro ws
  induction ws with
  | nil =>
    intro ms tr h
    unfold attrRound at h
    cases h
    exact ⟨by simp, by simp⟩
  | cons w rest ih =>
    intro ms tr h
    unfold attrRound at h
    cases hw : attrWord fs o expr attr text np w with
    | error e =>
      rw [hw] at h
      cases h
    | ok pair0 =>
      obtain ⟨ms0, tr0⟩ := pair0
      rw [hw] at h
      dsimp only at h
      cases hr : attrRound fs o expr attr text np rest with
      | error e =>
        rw [hr] at h
        cases h
      | ok pair1 =>
        obtain ⟨ms1, tr1⟩ := pair1
        rw [hr] at h
        dsimp only at h
        cases h
        obtain ⟨hname0, hptrue, hpfalse⟩ := attrWord_ok fs o expr attr text np w ms0 tr0 hw
        obtain ⟨hevs, hmms⟩ := ih ms1 tr1 hr
        constructor
        · intro ev hev hprop
          rcases List.mem_append.mp hev with hev | hev
          · have hname : ev.name = w := hname0 ev hev
            rw [hname] at hprop
            obtain ⟨opts, hsh, hopts⟩ := (hptrue hprop).1 ev hev
            refine ⟨opts, ?_, hopts⟩
            rw [hname]
            exact hsh
          · exact hevs ev hev hprop
        · intro m hm
          rcases List.mem_append.mp hm with hm | hm
          · refine ⟨w, List.mem_cons_self w rest, ?_⟩
            by_cases hprop : o.isProp w = true
            · exact Or.inl ⟨hprop, (hptrue hprop).2 m hm⟩
            · rw [Bool.not_eq_true] at hprop
              exact Or.inr ⟨hprop, hpfalse hprop m hm⟩
          · obtain ⟨w', hw', hcase⟩ := hmms m hm
            exact ⟨w', List.mem_cons_of_mem w hw', hcase⟩

theorem attrWhileGo_ok (fs : List AttrPred) (o : PyObject) (expr attr text : Str) :
    ∀ (fuel : Nat) (np : Option Str) (ms : List Str) (tr : List AttrEvent),
    attrWhileGo fs o expr attr text fuel np = .ok (ms, tr) →
    (∀ ev ∈ tr, o.isProp ev.name = true →
      ∃ opts, ev = .filterQuery ev.name PyValue.none opts ∧
        opts = ⟨some o.typeTag, true⟩) ∧
    (∀ m ∈ ms, ∃ w ∈ objectWords o,
      (o.isProp w = true ∧ m = (expr ++ str ".") ++ w) ∨
      (o.isProp w = false ∧ ∃ d ∈ decoSet, m = ((expr ++ str ".") ++ w) ++ d)) := by
  intro fuel
  induction fuel with
  | zero =>
    intro np ms tr h
    exact attrRound_ok fs o expr attr text np (objectWords o) ms tr h
  | succ fuel ih =>
    intro np ms tr h
    unfold attrWhileGo at h
    cases hr : attrRound fs o expr attr text np (objectWords o) with
    | error e =>
      rw [hr] at h
      cases h
    | ok pair0 =>
      obtain ⟨ms0, tr0⟩ := pair0
      rw [hr] at h
      dsimp only at h
      obtain ⟨hevs0, hms0⟩ := attrRound_ok fs o expr attr text np (objectWords o) ms0 tr0 hr
      cases np with
      | none =>
        cases h
        exact ⟨hevs0, hms0⟩
      | some np' =>
        dsimp only at h
        by_cases hempty : ms0.isEmpty = true
        · rw [if_pos hempty] at h
          cases hrec : attrWhileGo fs o expr attr text fuel
              (if np' == str "_" then some (str "__") else none) with
          | error e =>
            rw [hrec] at h
            cases h
          | ok pair1 =>
            obtain ⟨ms1, tr1⟩ := pair1
            rw [hrec] at h
            dsimp only at h
            obtain ⟨hevs1, hms1⟩ := ih _ ms1 tr1 hrec
            cases h
            refine ⟨?_, hms1⟩
            intro ev hev hprop
            rcases List.mem_append.mp hev with hev | hev
            · exact hevs0 ev hev hprop
            · exact hevs1 ev hev hprop
        · rw [if_neg hempty] at h
          cases h
          exact ⟨hevs0, hms0⟩

/-- C6: for a member that is structurally a property on the resolved
object's type, `attr_matches` consults the attribute filter chain with
value `None` and the owner-type / is-property option flags, never
decorates the candidate with a call marker, and never invokes the
property's getter — in particular (and a fortiori for a property excluded
by a filter) the getter fires zero times during the whole run.  Member
names are assumed to be ordinary word-character identifiers. -/
theorem property_member_protocol (c : Completer) (text expr attr w : Str)
    (o : PyObject) (ms : List Str) (tr : List AttrEvent)
    (hm : rlMatch text = some (expr, attr))
    (he : c.evalFn expr = .ok o)
    (hp : o.isProp w = true)
    (hw : wordOnly w = true)
    (hwords : ∀ u ∈ objectWords o, wordOnly u = true)
    (hrun : attrMatches c text = .ok (ms, tr)) :
    AttrEvent.getterCall w ∉ tr ∧
    (∀ v opts, AttrEvent.filterQuery w v opts ∈ tr →
      v = PyValue.none ∧ opts = ⟨some o.typeTag, true⟩) ∧
    ((expr ++ str ".") ++ w) ++ str "(" ∉ ms ∧
    ((expr ++ str ".") ++ w) ++ str "()" ∉ ms := by
  unfold attrMatches at hrun
  rw [hm] at hrun
  dsimp only at hrun
  rw [he] at hrun
  dsimp only at hrun
  cases hwg : attrWhile c.attrFilters o expr attr text (initNoPrefix attr) with
  | error e =>
    rw [hwg] at hrun
    cases hrun
  | ok pair0 =>
    obtain ⟨ms0, tr0⟩ := pair0
    rw [hwg] at hrun
    dsimp only at hrun
    unfold attrWhile at hwg
    obtain ⟨hevs, hms⟩ := attrWhileGo_ok c.attrFilters o expr attr text _ _ ms0 tr0 hwg
    cases hrun
    have key : ∀ d0, d0 ∈ decoSet → '(' ∈ d0 →
        ((expr ++ str ".") ++ w) ++ d0 ∉ sortStrs ms0 := by
      intro d0 hd0 hpar hmem
      rw [mem_sortStrs] at hmem
      obtain ⟨w', hw', hcase⟩ := hms _ hmem
      rcases hcase with ⟨hq, hmeq⟩ | ⟨hq, d', hd', hmeq⟩
      · have hmeq2 : (expr ++ str ".") ++ (w ++ d0) = (expr ++ str ".") ++ w' := by
          rw [← List.append_assoc]
          exact hmeq
        have hcancel : w ++ d0 = w' := List.append_cancel_left hmeq2
        have : '(' ∈ w' := by
          rw [← hcancel]
          exact List.mem_append_right w hpar
        have hwc := List.all_eq_true.mp (hwords w' hw') '(' this
        cases hwc
      · have hmeq2 : (expr ++ str ".") ++ (w ++ d0) = (expr ++ str ".") ++ (w' ++ d') := by
          rw [← List.append_assoc, ← List.append_assoc]
          exact hmeq
        have hcancel : w ++ d0 = w' ++ d' := List.append_cancel_left hmeq2
        have hsw : stripDecoration (w ++ d0) = w := stripDecoration_append w d0 hw hd0
        have hsw' : stripDecoration (w' ++ d') = w' :=
          stripDecoration_append w' d' (hwords w' hw') hd'
        have hww' : w = w' := by
          rw [← hsw, ← hsw', hcancel]
        rw [← hww'] at hq
        rw [hp] at hq
        cases hq
    refine ⟨?_, ?_, key (str "(") (by decide) (by decide),
      key (str "()") (by decide) (by decide)⟩
    · intro hmem
      have := hevs _ hmem
      have hname : (AttrEvent.getterCall w).name = w := rfl
      rw [hname] at this
      obtain ⟨opts, hsh, _⟩ := this hp
      cases hsh
    · intro v opts hmem
      have := hevs _ hmem
      have hname : (AttrEvent.filterQuery w v opts).name = w := rfl
      rw [hname] at this
      obtain ⟨opts', hsh, hopts⟩ := this hp
      cases hsh
      exact ⟨rfl, hopts⟩

/-- C6, witness: over `witC6Obj`, whose member `bar` is a property and is
rejected by the registered filter, the run records no getter call for
`bar`, every filter consultation for `bar` carries value `None` with the
owner/property flags, and no decorated `f.bar` candidate exists. -/
theorem property_member_protocol_witness :
    AttrEvent.getterCall (str "bar") ∉
      [AttrEvent.filterQuery (str "bar") PyValue.none ⟨some 7, true⟩,
       AttrEvent.valueAccess (str "baz"),
       AttrEvent.filterQuery (str "baz") plainValue noOptions] ∧
    (PyValue.none = PyValue.none ∧
      (⟨some 7, true⟩ : FilterOptions) = ⟨some witC6Obj.typeTag, true⟩) ∧
    ((str "f" ++ str ".") ++ str "bar") ++ str "(" ∉ [str "f.baz"] ∧
    ((str "f" ++ str ".") ++ str "bar") ++ str "()" ∉ [str "f.baz"] :=
  have h := property_member_protocol witC6 (str "f.b") (str "f") (str "b") (str "bar")
    witC6Obj [str "f.baz"]
    [AttrEvent.filterQuery (str "bar") PyValue.none ⟨some 7, true⟩,
     AttrEvent.valueAccess (str "baz"),
     AttrEvent.filterQuery (str "baz") plainValue noOptions]
    (by decide) rfl (by decide) (by decide) (by decide) (by decide)
  ⟨h.1, h.2.1 PyValue.none ⟨some 7, true⟩ (by decide), h.2.2.1, h.2.2.2⟩
